import Mathlib

/-!
Verification development for the xmandump man-page extraction tool.

The Go sources are shallowly embedded: strings are Lean `String`s and the
byte-level Go string operations (`strings.HasPrefix`, `strings.Contains`,
`path.Clean`, …) are modelled as computable functions on `String.data`
(rune lists; all paths involved are ASCII, where runes and bytes agree).
Maps (`map[string][]string`, `map[string]*Package`) are modelled as
association lists, and nondeterministic map iteration is modelled by a
list order chosen by the theorem statements.  Filesystem and archive I/O
is modelled by explicit data (`TarEntry` lists, `Option` for missing
files) and by traces of filesystem actions.
-/

/-! ## Go string primitives -/

/-- Rune-list prefix test: `listPfx p s` is true iff `p` is a prefix of `s`.
Models the comparison underlying Go `strings.HasPrefix`. -/
def listPfx : List Char → List Char → Bool
  | [], _ => true
  | _ :: _, [] => false
  | p :: ps, s :: ss => p == s && listPfx ps ss

/-- Rune-list substring test, models Go `strings.Contains` (scan every tail). -/
def listSub (p : List Char) : List Char → Bool
  | [] => p.isEmpty
  | c :: rest => listPfx p (c :: rest) || listSub p rest

/-- Go `strings.HasPrefix s p`. -/
def goHasPfx (s p : String) : Bool := listPfx p.data s.data

/-- Go `strings.HasSuffix s p`. -/
def goHasSfx (s p : String) : Bool := listPfx p.data.reverse s.data.reverse

/-- Go `strings.TrimPrefix s p`: drop `p` from the front of `s` when present. -/
def goTrimPfx (s p : String) : String :=
  if goHasPfx s p then String.mk (s.data.drop p.data.length) else s

/-- Go `strings.Contains s sub`. -/
def goContains (s sub : String) : Bool := listSub sub.data s.data

/-- Go `filepath.IsAbs` on Linux: the path starts with a slash. -/
def goIsAbs (p : String) : Bool := goHasPfx p "/"

/-- Go `filepath.ToSlash` on Linux (`Separator` is already a slash): identity. -/
def toSlash (p : String) : String := p

/-- Go `filepath.FromSlash` on Linux: identity. -/
def fromSlash (p : String) : String := p

/-! ## Model of Go `path.Clean`

`path.Clean` is a Go standard-library dependency (the repository consumes it
as a primitive).  It is modelled by the textbook segment rewriting it
documents: collapse multiple slashes, drop `.` segments, resolve a `..`
segment against a preceding non-`..` segment, drop leading `..` in rooted
paths, and return `.` for an empty result. -/

/-- The `..` segment. -/
def dd : List Char := ['.', '.']

/-- Split a rune list at every slash, keeping empty segments.
Always returns a nonempty list. -/
def splitSlash : List Char → List (List Char)
  | [] => [[]]
  | c :: rest =>
    match splitSlash rest with
    | s :: ss => if c = '/' then [] :: s :: ss else (c :: s) :: ss
    | [] => [[c]]

/-- Join segments with slashes (left inverse of `splitSlash`). -/
def joinSegs : List (List Char) → List Char
  | [] => []
  | [s] => s
  | s :: ss => s ++ '/' :: joinSegs ss

/-- One step of the `path.Clean` segment rewriting, processing segments
left-to-right with `acc` holding the output segments in reverse order. -/
def cleanAcc (rooted : Bool) (acc : List (List Char)) (seg : List Char) : List (List Char) :=
  if seg = [] then acc
  else if seg = ['.'] then acc
  else if seg = dd then
    match acc with
    | [] => if rooted then [] else [dd]
    | a :: rest => if a = dd then dd :: a :: rest else rest
  else seg :: acc

/-- The cleaned segment sequence of a rune list (output order). -/
def cleanOut (rooted : Bool) (l : List Char) : List (List Char) :=
  ((splitSlash l).foldl (cleanAcc rooted) []).reverse

/-- Model of Go `path.Clean`. -/
def clean (s : String) : String :=
  match s.data with
  | [] => "."
  | c :: cs =>
    if c = '/' then String.mk ('/' :: joinSegs (cleanOut true (c :: cs)))
    else if joinSegs (cleanOut false (c :: cs)) = [] then "."
    else String.mk (joinSegs (cleanOut false (c :: cs)))

/-- A path contains a parent-directory traversal segment: some slash-separated
segment is exactly `..`. -/
def hasDotDotSeg (p : String) : Bool := (splitSlash p.data).contains dd

/-- Well-formed output segment of `path.Clean`: nonempty, not `.`, slash-free. -/
def okSeg (s : List Char) : Prop := s ≠ [] ∧ s ≠ ['.'] ∧ '/' ∉ s

/-- Invariant of the `cleanAcc` accumulator (output segments in reverse order):
all segments are well formed and the `..` segments form a final block. -/
def accInv (acc : List (List Char)) : Prop :=
  (∀ s ∈ acc, okSeg s) ∧
  ∃ front dots, acc = front ++ dots ∧ (∀ x ∈ dots, x = dd) ∧ dd ∉ front

/-! ## Cache reconciliation (from `main` and `Dumper.recordChange`)

Go maps of type `map[string][]string` are modelled as association lists
with at most one binding per key (all writes go through `assocSet`). -/

/-- The pending/prior cache type (`map[string][]string`). -/
abbrev CacheMap := List (String × List String)

/-- `cacheVersion` constant. -/
def cacheVersion : Nat := 1

/-- Map update: replace the binding for `k` if present, else append it. -/
def assocSet {α : Type} (l : List (String × α)) (k : String) (v : α) : List (String × α) :=
  if (l.lookup k).isSome then l.map (fun kv => if kv.1 = k then (k, v) else kv)
  else l ++ [(k, v)]

/-- `Dumper.recordChange`: append `paths` to the entry for `pkg`, writing an
explicit empty list when there are no paths at all for the key. -/
def recordChange (updates : CacheMap) (pkg : String) (paths : List String) : CacheMap :=
  let cur := (updates.lookup pkg).getD []
  if paths = [] ∧ cur = [] then assocSet updates pkg []
  else assocSet updates pkg (cur ++ paths)

/-- All file paths referenced anywhere in a cache (the `filerefs` seeding loop). -/
def cachePathsOf (c : CacheMap) : List String := c.flatMap (fun kv => kv.2)

/-- The carry-forward step of `main`: when not removing old files, copy every
prior-cache entry whose key was not touched this run into the updates. -/
def carryForward (removeOldFiles : Bool) (cache updates : CacheMap) : CacheMap :=
  if removeOldFiles then updates
  else updates ++ cache.filter (fun kv => (updates.lookup kv.1).isNone)

/-- The stale set: paths referenced in the prior cache with every path
referenced in the final updates removed (`delete(filerefs, file)`). -/
def staleFiles (cache finalUpdates : CacheMap) : List String :=
  (cachePathsOf cache).filter (fun p => !(cachePathsOf finalUpdates).contains p)

/-- The removal guard of `main`: skip absolute paths and paths containing
the substring `../` (after `filepath.ToSlash`, the identity on Linux). -/
def removalGuardSkips (file : String) : Bool :=
  goIsAbs file || goContains (toSlash file) "../"

/-- The stale paths that the deletion loop actually passes to `os.Remove`. -/
def removedFiles (removeOldFiles : Bool) (cache updates : CacheMap) : List String :=
  (staleFiles cache (carryForward removeOldFiles cache updates)).filter
    (fun f => !removalGuardSkips f)

/-- The `{version, cache}` record serialized at the end of `main`. -/
def persistedCache (removeOldFiles : Bool) (cache updates : CacheMap) : Nat × CacheMap :=
  (cacheVersion, carryForward removeOldFiles cache updates)

/-! ## `xbps.ParsePkgVer` -/

/-- The error kinds of `ParsePkgVer` (`ErrPkgVerNoName`, …). -/
inductive PkgVerErrKind
  | noName
  | noVersion
  | noRevision
  | badRevision
  | malformedVersion
deriving DecidableEq, Repr

/-- `xbps.PkgVer`. -/
structure PkgVer where
  name : String
  version : String
  revision : Int
deriving DecidableEq, Repr

/-- Index of the last occurrence of `c` (Go `strings.LastIndexByte`;
`none` models the Go result `-1`). -/
def lastIdxOf (c : Char) : List Char → Option Nat
  | [] => none
  | x :: rest =>
    match lastIdxOf c rest with
    | some i => some (i + 1)
    | none => if x = c then some 0 else none

/-- Decimal digit string to a number (`none` on empty or non-digit input). -/
def decDigitsNum (l : List Char) : Option Nat :=
  if l = [] then none
  else
    l.foldl
      (fun acc c =>
        match acc with
        | none => none
        | some n => if c.isDigit then some (n * 10 + (c.toNat - 48)) else none)
      (some 0)

/-- Model of Go `strconv.Atoi` (optional sign, decimal digits; the int64
overflow error is not modelled — the revisions involved are tiny). -/
def goAtoi (s : String) : Option Int :=
  match s.data with
  | '+' :: rest => (decDigitsNum rest).map Int.ofNat
  | '-' :: rest => (decDigitsNum rest).map (fun n => -(n : Int))
  | l => (decDigitsNum l).map Int.ofNat

/-- `xbps.ParsePkgVer`: parse `<name>-<version>_<revision>`. -/
def parsePkgVer (s : String) : Except (String × PkgVerErrKind) PkgVer :=
  match lastIdxOf '_' s.data with
  | none => .error (s, .noRevision)
  | some revSep =>
    if revSep = s.data.length - 1 then .error (s, .noRevision)
    else
      match goAtoi (String.mk (s.data.drop (revSep + 1))) with
      | none => .error (s, .badRevision)
      | some rev =>
        if rev ≤ 0 then .error (s, .badRevision)
        else
          match lastIdxOf '-' (s.data.take revSep) with
          | none => .error (s, .noVersion)
          | some versionSep =>
            let ver := (s.data.take revSep).drop (versionSep + 1)
            if ver = [] then .error (s, .noVersion)
            else if ver.any (fun r => r = ':' || r = '-') then .error (s, .malformedVersion)
            else if s.data.take versionSep = [] then .error (s, .noName)
            else .ok ⟨String.mk (s.data.take versionSep), String.mk ver, rev⟩

/-- `xrepo.parseVersionedName`, as used by `ReadRepoIndex`: the version and
revision results, which are the Go zero values `""` and `0` when
`ParsePkgVer` fails (the error itself is discarded by the caller). -/
def parseVersionedNameVR (s : String) : String × Int :=
  match parsePkgVer s with
  | .ok pv => (pv.version, pv.revision)
  | .error _ => ("", 0)

/-! ## The fingerprinted catalog (`xrepo.RepoData`)

`xrepo.Package` is modelled by `XPkg`: the fields `ReadRepoIndex` reads or
writes are explicit, and `meta` stands opaquely for all remaining decoded
metadata (architecture, dependencies, …).  The SHA-1/JSON fingerprinting
primitives are external dependencies and are abstracted as function
parameters `h1` (per-record: hash of the JSON serialization, which omits
the `PackageVersion`, `Index` and `ETag` fields) and `hA` (aggregate: hash
of the record count and each record's version string and fingerprint). -/

/-- Model of `xrepo.Package` (fields relevant to the catalog reader). -/
structure XPkg where
  pkgver : String
  meta : String
  name : String
  version : String
  revision : Int
  repository : String
  etag : String
  idx : Nat
deriving DecidableEq, Repr

/-- The JSON view of a record: exactly the fields that feed the per-record
fingerprint (`PackageVersion`, `Index`, `ETag` carry `json:"-"`). -/
def jsonView (p : XPkg) : String × String × Int × String × String :=
  (p.name, p.version, p.revision, p.repository, p.meta)

/-- Abstract per-record fingerprint function type. -/
abbrev RecHash := (String × String × Int × String × String) → String

/-- Abstract aggregate fingerprint function type (record count plus, per
record in order, its version string and fingerprint). -/
abbrev AggHash := (Nat × List (String × String)) → String

/-- `defaultRepository`. -/
def defaultRepository : String := "current"

/-- The per-record processing of the `ReadRepoIndex` merge loop: fill in
name/version/revision for freshly decoded records (parse errors are
discarded), assign the repository, recompute the fingerprint. -/
def processRecord (h1 : RecHash) (repo k : String) (p0 : XPkg) : XPkg :=
  let p1 :=
    if p0.name = "" then
      { p0 with
        name := k,
        version := (parseVersionedNameVR p0.pkgver).1,
        revision := (parseVersionedNameVR p0.pkgver).2 }
    else p0
  let p2 := { p1 with repository := repo }
  { p2 with etag := h1 (jsonView p2) }

/-- One iteration of the merge loop: overwrite in place when the key is
known (at the remembered index), append otherwise. -/
def mergeStep (h1 : RecHash) (repo : String)
    (st : List (String × XPkg) × List XPkg) (kp : String × XPkg) :
    List (String × XPkg) × List XPkg :=
  let old? := st.1.lookup kp.1
  let p := processRecord h1 repo kp.1 kp.2
  let root := assocSet st.1 kp.1 p
  match old? with
  | some old => (root, st.2.set old.idx p)
  | none => (root, st.2 ++ [p])

/-- Insertion step of the name sort. -/
def insPkg (p : XPkg) : List XPkg → List XPkg
  | [] => [p]
  | q :: qs => if p.name ≤ q.name then p :: q :: qs else q :: insPkg p qs

/-- The `sort.Slice(index, by name)` call, modelled as insertion sort (the
Go sort is an opaque correct comparison sort; names are unique here, so
every correct sort yields the same list). -/
def sortPkgs : List XPkg → List XPkg
  | [] => []
  | p :: ps => insPkg p (sortPkgs ps)

/-- The `for i, p := range index { p.Index = i }` reindexing loop. -/
def reindexFrom (i : Nat) : List XPkg → List XPkg
  | [] => []
  | p :: ps => { p with idx := i } :: reindexFrom (i + 1) ps

/-- Model of `xrepo.RepoData`. -/
structure RepoDataM where
  root : List (String × XPkg)
  index : List XPkg
  nameIdx : List String
  etag : String
deriving DecidableEq, Repr

/-- `xrepo.NewRepoData()`. -/
def newRepoData : RepoDataM := ⟨[], [], [], ""⟩

/-- The projection of a record that the post-merge pipeline depends on:
its name (for sorting) and the version string / fingerprint pair (for the
aggregate fingerprint).  `idx` is deliberately excluded. -/
def pkgProj (p : XPkg) : String × String × String := (p.name, p.pkgver, p.etag)

/-- The version/fingerprint pair of a record. -/
def pairView (p : XPkg) : String × String := (p.pkgver, p.etag)

/-- The data fed to the aggregate fingerprint (`RepoData.computeETag`):
the record count, then each record's version string and fingerprint. -/
def aggView (index : List XPkg) : Nat × List (String × String) :=
  (index.length, index.map pairView)

/-- `RepoData.ReadRepoIndex` on an already-decoded property-list map
(`input`, in an arbitrary iteration order since Go map order is
unspecified).  In Go, `root` and `index` alias the same record objects, so
the reindexing loop is also visible through `root`; the model rebuilds
`root` from the final index (valid because decoded records carry empty
names, making every root binding `k ↦ record named k`). -/
def readRepoIndex (h1 : RecHash) (hA : AggHash)
    (rd : RepoDataM) (input : List (String × XPkg)) (repo : String) : RepoDataM :=
  let repo' := if repo = "" then defaultRepository else repo
  let st := input.foldl (mergeStep h1 repo') (rd.root, rd.index)
  let index := reindexFrom 0 (sortPkgs st.2)
  { root := index.map (fun p => (p.name, p)),
    index := index,
    nameIdx := index.map (fun p => p.name),
    etag := hA (aggView index) }

/-- A concrete stand-in per-record hash (for closed instances). -/
def etagStub : RecHash := fun _ => "E"

/-- A concrete stand-in aggregate hash (for closed instances). -/
def aggStub : AggHash := fun v => String.mk (List.replicate v.1 'a')

/-- View of `Except` as a sum (for decidable equality). -/
def exceptToSum {ε α : Type} : Except ε α → ε ⊕ α
  | .error e => .inl e
  | .ok a => .inr a

instance {ε α : Type} [DecidableEq ε] [DecidableEq α] : DecidableEq (Except ε α) := fun a b =>
  decidable_of_iff (exceptToSum a = exceptToSum b)
    (by cases a <;> cases b <;> simp [exceptToSum])

/-- A freshly decoded record for pkgver `nameonly` (plist decoding leaves
`Name`, `Version`, `Revision`, `Repository`, `ETag`, `Index` at their Go
zero values). -/
def nameonlyPkg : XPkg := ⟨"nameonly", "m", "", "", 0, "", "", 0⟩

/-! ## The concurrent filter (`xrepo.Packages.Filter`)

`Packages` is `List XPkg`.  `intsets.Sparse` (a sparse ordered integer set
with ascending `TakeMin` readout) is modelled by sorting and deduplicating
the inserted indices; the per-chunk goroutines are modelled by the chunk
list, whose union is order-independent. -/

/-- `minSplitFilter` threshold constant. -/
def minSplitFilter : Nat := 3000

/-- `splitSize` chunk-size constant. -/
def splitSize : Nat := 2000

/-- `Packages.singleFilter`: sequential scan appending matches. -/
def singleFilter (ps : List XPkg) (fn : XPkg → Bool) : List XPkg :=
  ps.foldl (fun acc p => if fn p then acc ++ [p] else acc) []

/-- The chunking loop `for i := 0; i < len(ps); i += splitSize`, returning
each chunk with its start offset. -/
def goChunksFrom (start : Nat) (ps : List XPkg) : List (Nat × List XPkg) :=
  if h : ps = [] then []
  else (start, ps.take splitSize) :: goChunksFrom (start + splitSize) (ps.drop splitSize)
termination_by ps.length
decreasing_by
  have hl : 0 < ps.length := List.length_pos.mpr h
  simp only [List.length_drop, splitSize]
  omega

/-- The per-chunk goroutine body: global indices of matches within a chunk
starting at offset `s`. -/
def matchIdxs (fn : XPkg → Bool) : Nat → List XPkg → List Nat
  | _, [] => []
  | s, p :: rest => (if fn p then [s] else []) ++ matchIdxs fn (s + 1) rest

/-- Insertion step of the sparse-set readout order. -/
def insNat (n : Nat) : List Nat → List Nat
  | [] => [n]
  | m :: ms => if n ≤ m then n :: m :: ms else m :: insNat n ms

/-- Sort indices ascending. -/
def sortNats : List Nat → List Nat
  | [] => []
  | n :: ns => insNat n (sortNats ns)

/-- Model of an `intsets.Sparse` union read out by ascending `TakeMin`:
the distinct inserted indices in ascending order. -/
def sparseAsc (l : List Nat) : List Nat := (sortNats l).dedup

/-- `Packages.splitFilter`: chunk, collect per-chunk global match indices,
union the sparse sets, and emit `ps[i]` by ascending index. -/
def splitFilter (ps : List XPkg) (fn : XPkg → Bool) : List XPkg :=
  (sparseAsc ((goChunksFrom 0 ps).map (fun c => matchIdxs fn c.1 c.2)).flatten).filterMap
    (fun i => ps[i]?)

/-- `Packages.Filter`: dispatch on the catalog size. -/
def filterPkgs (ps : List XPkg) (fn : XPkg → Bool) : List XPkg :=
  if ps.length ≤ minSplitFilter then singleFilter ps fn else splitFilter ps fn

/-- The branch condition of `Filter`: true exactly when the concurrent
split path runs. -/
def filterTakesSplitPath (n : Nat) : Bool := !(decide (n ≤ minSplitFilter))

/-! ## The package extraction worker (`Dumper.processPackage`)

Archive I/O is modelled by data: a package archive is a compression-format
tag plus the sequence of tar entries; a tar entry carries its name, type
flag, symlink target, and — for the entry selected as the manifest — the
decoded `files.plist` content (`none` modelling a decode failure).  A
missing archive file is `Option.none`.  Filesystem writes are modelled by
an action trace; the model follows the successful execution of each write
(worker-aborting write errors are outside the model). -/

/-- Tar entry type flags. -/
inductive TypeFlag
  | reg
  | symlink
  | link
  | dir
  | other
deriving DecidableEq, Repr

/-- The decoded `files.plist` manifest (`packageFiles`): each field holds
the `file` strings of its `packageFile` entries. -/
structure PackageFilesM where
  files : List String
  dirs : List String
  links : List String
deriving DecidableEq, Repr

/-- `packageFiles.Empty()`: no directories at all. -/
def packageFilesEmpty (f : PackageFilesM) : Bool := f.dirs.isEmpty

/-- A tar entry. -/
structure TarEntry where
  name : String
  typeflag : TypeFlag
  linkname : String
  plistContent : Option PackageFilesM
deriving DecidableEq, Repr

/-- Compression formats distinguished by content sniffing. -/
inductive Compression
  | xz
  | zstd
  | unsupported
deriving DecidableEq, Repr

/-- A package archive: its sniffed format and its tar entry stream. -/
structure ArchiveM where
  format : Compression
  entries : List TarEntry
deriving DecidableEq, Repr

/-- The fields of `xrepo.Package` the worker reads. -/
structure PkgRef where
  name : String
  filenameSHA256 : String
deriving DecidableEq, Repr

/-- Worker-fatal error conditions. -/
inductive PkgErr
  | unsupportedFormat
  | filesDecodeFailure
deriving DecidableEq, Repr

/-- Filesystem actions performed by `processPackageFile`. -/
inductive FsAction
  | mkdirAll (dir : String)
  | createFile (path : String)
  | replaceSymlink (target path : String)
deriving DecidableEq, Repr

/-- `manPathPrefix` constant (`usr/share/man/man`). -/
def manPathPfxS : String := "usr/share/man/man"

/-- `manPathTrimPrefix` constant (`usr/share/man/`). -/
def manPathTrimPfxS : String := "usr/share/man/"

/-- `manDirsPrefix` constant (`/usr/share/man/man`). -/
def manDirsPfxS : String := "/usr/share/man/man"

/-- The first-pass manifest scan: skip entries until a regular file whose
cleaned name is `files.plist`; return it with the remaining stream. -/
def findManifest : List TarEntry → Option (TarEntry × List TarEntry)
  | [] => none
  | e :: rest =>
    if e.typeflag = TypeFlag.reg ∧ clean e.name = "files.plist" then some (e, rest)
    else findManifest rest

/-- Index of the last slash of a rune list (for `filepath.Dir`). -/
def lastSlashIdx : List Char → Option Nat
  | [] => none
  | c :: rest =>
    match lastSlashIdx rest with
    | some i => some (i + 1)
    | none => if c = '/' then some 0 else none

/-- Go `filepath.Dir` on Linux: `Clean` of everything up to and including
the final separator (`.` when there is none). -/
def goDirName (p : String) : String :=
  match lastSlashIdx p.data with
  | none => "."
  | some i => clean (String.mk (p.data.take (i + 1)))

/-- The path a tar entry is dumped to, when it is dumped: regular files
and symlinks whose cleaned name starts with `usr/share/man/man` are
extracted to the cleaned name with `usr/share/man/` stripped
(`filepath.FromSlash` is the identity on Linux). -/
def dumpRelPathOfEntry (e : TarEntry) : Option String :=
  match e.typeflag with
  | TypeFlag.reg | TypeFlag.symlink =>
    let pkgfile := clean e.name
    if goHasPfx pkgfile manPathPfxS then some (goTrimPfx pkgfile manPathTrimPfxS) else none
  | _ => none

/-- The filesystem actions of `processPackageFile` for one dumped entry:
create the parent directory, then either create/copy the regular file or
remove any existing entry and recreate the symlink. -/
def entryActions (e : TarEntry) : List FsAction :=
  match dumpRelPathOfEntry e with
  | none => []
  | some relpath =>
    if e.typeflag = TypeFlag.symlink then
      [FsAction.mkdirAll (goDirName relpath), FsAction.replaceSymlink e.linkname relpath]
    else
      [FsAction.mkdirAll (goDirName relpath), FsAction.createFile relpath]

/-- `Dumper.processPackageFile`: record the dumped path (if any) for the
package's content hash and emit the corresponding filesystem actions. -/
def processPackageFile (dHash : String) (e : TarEntry) (updates : CacheMap) :
    CacheMap × List FsAction :=
  match dumpRelPathOfEntry e with
  | none => (updates, [])
  | some relpath => (recordChange updates dHash [relpath], entryActions e)

/-- The target set built in the `scanPackage` block: `"." + file` for every
manifest file or symlink under `/usr/share/man/man` (a Go map-backed set,
modelled by a deduplicated list). -/
def targetSetOf (files : PackageFilesM) : List String :=
  ((files.files ++ files.links).filterMap
    (fun f => if goHasPfx f manDirsPfxS then some ("." ++ f) else none)).dedup

/-- The relevance check: some manifest directory's cleaned path starts with
`/usr/share/man/man`. -/
def hasManDir (files : PackageFilesM) : Bool :=
  files.dirs.any (fun d => goHasPfx (clean d) manDirsPfxS)

/-- The second-pass extraction loop: while the target set is nonempty and
entries remain, process the next entry with `processPackageFile` and
delete its name from the target set. -/
def secondPass (dHash : String) :
    List TarEntry → List String → CacheMap → List FsAction → CacheMap × List FsAction
  | _, [], u, acts => (u, acts)
  | [], _, u, acts => (u, acts)
  | e :: rest, m :: ms, u, acts =>
    let r := processPackageFile dHash e u
    secondPass dHash rest ((m :: ms).filter (fun n => n != e.name)) r.1 (acts ++ r.2)

/-- `Dumper.processPackage`: the per-package worker.  `cache` is the prior
cache, `updates` the pending cache, `archive` the package archive
(`none` when `os.Open` reports not-exist). -/
def processPackage (cache updates : CacheMap) (pkg : PkgRef)
    (archive : Option ArchiveM) : Except PkgErr (CacheMap × List FsAction) :=
  if goHasSfx pkg.name "-dbg" || goHasSfx pkg.name "-32bit" then
    Except.ok (updates, [])
  else
    match cache.lookup pkg.filenameSHA256 with
    | some entries => Except.ok (recordChange updates pkg.filenameSHA256 entries, [])
    | none =>
      match archive with
      | none => Except.ok (updates, [])
      | some ar =>
        match ar.format with
        | Compression.unsupported => Except.error PkgErr.unsupportedFormat
        | _ =>
          match findManifest ar.entries with
          | none => Except.ok (recordChange updates pkg.filenameSHA256 [], [])
          | some (me, rest) =>
            match me.plistContent with
            | none => Except.error PkgErr.filesDecodeFailure
            | some files =>
              if packageFilesEmpty files then
                Except.ok (recordChange updates pkg.filenameSHA256 [], [])
              else if !hasManDir files then
                Except.ok (recordChange updates pkg.filenameSHA256 [], [])
              else
                let r := secondPass pkg.filenameSHA256 rest (targetSetOf files) updates []
                Except.ok (recordChange r.1 pkg.filenameSHA256 [], r.2)

/-- The prefix of the second-pass stream that the loop actually reads: it
stops when the target set empties or the stream ends; the set only shrinks
by the names of entries already read. -/
def processedUpTo : List TarEntry → List String → List TarEntry
  | _, [] => []
  | [], _ => []
  | e :: rest, m :: ms => e :: processedUpTo rest ((m :: ms).filter (fun n => n != e.name))

/-- The dump paths of the entries the second pass reads (the extraction
decision per entry ignores the target set). -/
def extractedRelPaths (entries : List TarEntry) (mp : List String) : List String :=
  (processedUpTo entries mp).filterMap dumpRelPathOfEntry

/-- The manifest and archive of the C8 counterexample: the manifest lists
only `a.1`, but the archive's second pass also carries `rogue.1`, a
regular file under the man prefix that is not in the manifest. -/
def c8mani : PackageFilesM :=
  ⟨["/usr/share/man/man1/a.1"], ["/usr/share/man/man1"], []⟩

/-- The archive of the C8 counterexample. -/
def c8archive : ArchiveM :=
  ⟨Compression.xz,
   [⟨"./files.plist", TypeFlag.reg, "", some c8mani⟩,
    ⟨"./usr/share/man/man1/rogue.1", TypeFlag.reg, "", none⟩,
    ⟨"./usr/share/man/man1/a.1", TypeFlag.reg, "", none⟩]⟩

/-! ## Theorems -/

/-! ### Lemmas about the string primitives and `clean` -/

theorem listPfx_iff (p s : List Char) : listPfx p s = true ↔ ∃ t, s = p ++ t := by
  induction p generalizing s with
  | nil => simp [listPfx]
  | cons a as ih =>
    cases s with
    | nil => simp [listPfx]
    | cons b bs =>
      simp only [listPfx, Bool.and_eq_true, beq_iff_eq, ih, List.cons_append, List.cons.injEq]
      constructor
      · rintro ⟨rfl, t, rfl⟩; exact ⟨t, rfl, rfl⟩
      · rintro ⟨t, rfl, rfl⟩; exact ⟨rfl, t, rfl⟩

theorem goHasPfx_iff (s p : String) : goHasPfx s p = true ↔ ∃ t, s.data = p.data ++ t := by
  simp [goHasPfx, listPfx_iff]

theorem splitSlash_ne_nil (l : List Char) : splitSlash l ≠ [] := by
  cases l with
  | nil => simp [splitSlash]
  | cons c rest =>
    simp only [splitSlash]
    rcases h : splitSlash rest with _ | ⟨s, ss⟩
    · simp
    · by_cases hc : c = '/' <;> simp [hc]

theorem splitSlash_no_slash (l : List Char) : ∀ s ∈ splitSlash l, '/' ∉ s := by
  induction l with
  | nil => simp [splitSlash]
  | cons c rest ih =>
    simp only [splitSlash]
    rcases h : splitSlash rest with _ | ⟨s, ss⟩
    · exact absurd h (splitSlash_ne_nil rest)
    · have ihs : '/' ∉ s := ih s (h ▸ List.mem_cons_self s ss)
      have ihss : ∀ x ∈ ss, '/' ∉ x := fun x hx => ih x (h ▸ List.mem_cons_of_mem s hx)
      by_cases hc : c = '/'
      · subst hc
        simp only [if_pos rfl]
        intro x hx
        rcases List.mem_cons.mp hx with rfl | hx'
        · simp
        · rcases List.mem_cons.mp hx' with rfl | hx''
          · exact ihs
          · exact ihss x hx''
      · simp only [if_neg hc]
        intro x hx
        rcases List.mem_cons.mp hx with rfl | hx'
        · intro hm
          rcases List.mem_cons.mp hm with h1 | h1
          · exact hc h1.symm
          · exact ihs h1
        · exact ihss x hx'

theorem splitSlash_of_no_slash (a : List Char) (ha : '/' ∉ a) : splitSlash a = [a] := by
  induction a with
  | nil => simp [splitSlash]
  | cons c rest ih =>
    have hc : c ≠ '/' := fun h => ha (by simp [h])
    have hrest : '/' ∉ rest := fun h => ha (by simp [h])
    simp only [splitSlash]
    rw [ih hrest]
    simp [hc]

theorem splitSlash_append (a t : List Char) (ha : '/' ∉ a) :
    splitSlash (a ++ '/' :: t) = a :: splitSlash t := by
  induction a with
  | nil =>
    simp only [List.nil_append, splitSlash]
    rcases h : splitSlash t with _ | ⟨s, ss⟩
    · exact absurd h (splitSlash_ne_nil t)
    · simp
  | cons c rest ih =>
    have hc : c ≠ '/' := fun h => ha (by simp [h])
    have hrest : '/' ∉ rest := fun h => ha (by simp [h])
    show splitSlash (c :: (rest ++ '/' :: t)) = (c :: rest) :: splitSlash t
    simp only [splitSlash]
    rw [ih hrest]
    simp [hc]

theorem joinSegs_splitSlash (l : List Char) : joinSegs (splitSlash l) = l := by
  induction l with
  | nil => simp [splitSlash, joinSegs]
  | cons c rest ih =>
    simp only [splitSlash]
    rcases h : splitSlash rest with _ | ⟨s, ss⟩
    · exact absurd h (splitSlash_ne_nil rest)
    · rw [h] at ih
      by_cases hc : c = '/'
      · subst hc
        simp only [if_pos rfl, joinSegs]
        cases ss with
        | nil => simpa [joinSegs] using congrArg (List.cons '/') ih
        | cons x xs => simpa [joinSegs] using congrArg (List.cons '/') ih
      · simp only [if_neg hc]
        cases ss with
        | nil => simpa [joinSegs] using congrArg (List.cons c) ih
        | cons x xs => simpa [joinSegs] using congrArg (List.cons c) ih

theorem splitSlash_joinSegs (out : List (List Char)) (hne : out ≠ [])
    (hns : ∀ s ∈ out, '/' ∉ s) : splitSlash (joinSegs out) = out := by
  induction out with
  | nil => exact absurd rfl hne
  | cons s ss ih =>
    cases ss with
    | nil =>
      simp only [joinSegs]
      exact splitSlash_of_no_slash s (hns s (by simp))
    | cons x xs =>
      have hjoin : joinSegs (s :: x :: xs) = s ++ '/' :: joinSegs (x :: xs) := rfl
      rw [hjoin, splitSlash_append _ _ (hns s (by simp)),
        ih (by simp) (fun y hy => hns y (by simp [hy]))]

theorem accInv_nil : accInv [] :=
  ⟨by simp, [], [], by simp, by simp, by simp⟩

theorem okSeg_dd : okSeg dd := by
  refine ⟨by simp [dd], by simp [dd], ?_⟩
  simp [dd]

theorem accInv_step (rooted : Bool) (acc : List (List Char)) (seg : List Char)
    (hseg : '/' ∉ seg) (h : accInv acc) : accInv (cleanAcc rooted acc seg) := by
  obtain ⟨hok, front, dots, hsplit, hdots, hfront⟩ := h
  unfold cleanAcc
  by_cases h0 : seg = []
  · simp only [if_pos h0]; exact ⟨hok, front, dots, hsplit, hdots, hfront⟩
  by_cases h1 : seg = ['.']
  · simp only [if_neg h0, if_pos h1]; exact ⟨hok, front, dots, hsplit, hdots, hfront⟩
  by_cases h2 : seg = dd
  · simp only [if_neg h0, if_neg h1, if_pos h2]
    cases acc with
    | nil =>
      cases rooted
      · show accInv [dd]
        exact ⟨fun s hs => by rw [List.mem_singleton.mp hs]; exact okSeg_dd,
          [], [dd], by simp, by simp, by simp⟩
      · show accInv []
        exact accInv_nil
    | cons a rest =>
      by_cases ha : a = dd
      · simp only [if_pos ha]
        have hfrontnil : front = [] := by
          cases front with
          | nil => rfl
          | cons f fs =>
            exfalso
            have : a = f := by simpa using congrArg List.head? hsplit
            exact hfront (by rw [← this, ha]; exact List.mem_cons_self dd fs)
        subst hfrontnil
        simp only [List.nil_append] at hsplit
        refine ⟨?_, [], dd :: a :: rest, by simp, ?_, by simp⟩
        · intro s hs
          rcases List.mem_cons.mp hs with rfl | hs'
          · exact okSeg_dd
          · exact hok s hs'
        · intro x hx
          rcases List.mem_cons.mp hx with rfl | hx'
          · rfl
          · exact hdots x (hsplit ▸ hx')
      · simp only [if_neg ha]
        cases front with
        | nil =>
          exfalso
          simp only [List.nil_append] at hsplit
          have : a = dd := hdots a (hsplit ▸ List.mem_cons_self a rest)
          exact ha this
        | cons f fs =>
          have hf : a = f ∧ rest = fs ++ dots := by
            have := hsplit
            simp only [List.cons_append, List.cons.injEq] at this
            exact ⟨this.1, this.2⟩
          refine ⟨fun s hs => hok s (by simp [hf.2] at hs ⊢; tauto), fs, dots, hf.2, hdots,
            fun hm => hfront (List.mem_cons_of_mem f hm)⟩
  · simp only [if_neg h0, if_neg h1, if_neg h2]
    refine ⟨?_, seg :: front, dots, by rw [hsplit, List.cons_append], hdots, ?_⟩
    · intro s hs
      rcases List.mem_cons.mp hs with rfl | hs'
      · exact ⟨h0, h1, hseg⟩
      · exact hok s hs'
    · intro hm
      rcases List.mem_cons.mp hm with h' | h'
      · exact h2 h'.symm
      · exact hfront h'

theorem accInv_foldl (rooted : Bool) (segs : List (List Char))
    (hsegs : ∀ s ∈ segs, '/' ∉ s) :
    ∀ acc, accInv acc → accInv (segs.foldl (cleanAcc rooted) acc) := by
  induction segs with
  | nil => intro acc h; simpa using h
  | cons s ss ih =>
    intro acc h
    simp only [List.foldl_cons]
    exact ih (fun x hx => hsegs x (List.mem_cons_of_mem s hx))
      (cleanAcc rooted acc s) (accInv_step rooted acc s (hsegs s (List.mem_cons_self s ss)) h)

theorem cleanOut_inv (rooted : Bool) (l : List Char) :
    (∀ s ∈ cleanOut rooted l, okSeg s) ∧
    ∃ front dots : List (List Char),
      cleanOut rooted l = dots.reverse ++ front.reverse ∧
      (∀ x ∈ dots, x = dd) ∧ dd ∉ front := by
  obtain ⟨hok, front, dots, hsplit, hdots, hfront⟩ :=
    accInv_foldl rooted (splitSlash l) (splitSlash_no_slash l) [] accInv_nil
  refine ⟨fun s hs => hok s (List.mem_reverse.mp hs), front, dots, ?_, hdots, hfront⟩
  unfold cleanOut
  rw [hsplit, List.reverse_append]

theorem cleanOut_no_dd (rooted : Bool) (l : List Char) (x : List Char)
    (rest : List (List Char)) (h : cleanOut rooted l = x :: rest) (hx : x ≠ dd) :
    dd ∉ cleanOut rooted l := by
  obtain ⟨-, front, dots, hsplit, hdots, hfront⟩ := cleanOut_inv rooted l
  cases hd : dots.reverse with
  | nil =>
    rw [hsplit, hd, List.nil_append]
    intro hm
    exact hfront (List.mem_reverse.mp hm)
  | cons y ys =>
    exfalso
    have hy : y = dd := hdots y (List.mem_reverse.mp (by rw [hd]; exact List.mem_cons_self y ys))
    have : x = y := by
      have := hsplit.symm.trans h
      rw [hd] at this
      simpa using congrArg List.head? this.symm
    exact hx (this.trans hy)

theorem contains_false {α : Type} [BEq α] [LawfulBEq α] {l : List α} {a : α}
    (h : a ∉ l) : l.contains a = false := by
  rw [Bool.eq_false_iff]
  intro hc
  exact h (List.elem_iff.mp hc)

theorem clean_body_of_pfx (s : String) (h : goHasPfx (clean s) "usr/share/man/man" = true) :
    (clean s).data = joinSegs (cleanOut false s.data) := by
  obtain ⟨t, ht⟩ := (goHasPfx_iff _ _).mp h
  have h17 : "usr/share/man/man".data = 'u' :: "sr/share/man/man".data := by decide
  rcases hdat : s.data with _ | ⟨c, cs⟩
  · exfalso
    have hcl : clean s = "." := by unfold clean; rw [hdat]
    rw [hcl, h17] at ht
    have : '.' = 'u' := by simpa using congrArg List.head? ht
    exact absurd this (by decide)
  · by_cases hc : c = '/'
    · exfalso
      have hcl : clean s = String.mk ('/' :: joinSegs (cleanOut true (c :: cs))) := by
        unfold clean; rw [hdat]; simp [hc]
      rw [hcl, h17] at ht
      have : '/' = 'u' := by simpa using congrArg List.head? ht
      exact absurd this (by decide)
    · by_cases hb : joinSegs (cleanOut false (c :: cs)) = []
      · exfalso
        have hcl : clean s = "." := by unfold clean; rw [hdat]; simp [hc, hb]
        rw [hcl, h17] at ht
        have : '.' = 'u' := by simpa using congrArg List.head? ht
        exact absurd this (by decide)
      · have hcl : clean s = String.mk (joinSegs (cleanOut false (c :: cs))) := by
          unfold clean; rw [hdat]; simp [hc, hb]
        rw [hcl]

theorem clean_man_rel (s : String) (h : goHasPfx (clean s) "usr/share/man/man" = true) :
    ∃ t, (goTrimPfx (clean s) "usr/share/man/").data = "man".data ++ t ∧
      dd ∉ splitSlash ("man".data ++ t) := by
  have hbody := clean_body_of_pfx s h
  obtain ⟨t, ht⟩ := (goHasPfx_iff _ _).mp h
  have hP : "usr/share/man/man".data =
      "usr".data ++ '/' :: ("share".data ++ '/' :: ("man".data ++ '/' :: "man".data)) := by
    decide
  have hbody2 : (clean s).data =
      "usr".data ++ '/' :: ("share".data ++ '/' :: ("man".data ++ '/' :: ("man".data ++ t))) := by
    rw [ht, hP]
    simp [List.append_assoc]
  have hns : ∀ x ∈ cleanOut false s.data, '/' ∉ x :=
    fun x hx => ((cleanOut_inv false s.data).1 x hx).2.2
  have hone : cleanOut false s.data ≠ [] := by
    intro h0
    rw [h0] at hbody
    rw [hbody2] at hbody
    simp [joinSegs] at hbody
  have hsplit : splitSlash (joinSegs (cleanOut false s.data)) = cleanOut false s.data :=
    splitSlash_joinSegs _ hone hns
  have husr : '/' ∉ "usr".data := by decide
  have hshare : '/' ∉ "share".data := by decide
  have hman : '/' ∉ "man".data := by decide
  have hpeel : splitSlash (clean s).data =
      "usr".data :: "share".data :: "man".data :: splitSlash ("man".data ++ t) := by
    rw [hbody2, splitSlash_append _ _ husr, splitSlash_append _ _ hshare,
      splitSlash_append _ _ hman]
  have hout_eq : cleanOut false s.data =
      "usr".data :: "share".data :: "man".data :: splitSlash ("man".data ++ t) := by
    rw [← hpeel, hbody, hsplit]
  have hnodd : dd ∉ cleanOut false s.data :=
    cleanOut_no_dd false s.data _ _ hout_eq (by decide)
  have hnodd3 : dd ∉ splitSlash ("man".data ++ t) := by
    intro hm
    apply hnodd
    rw [hout_eq]
    exact List.mem_cons_of_mem _ (List.mem_cons_of_mem _ (List.mem_cons_of_mem _ hm))
  have h14 : "usr/share/man/man".data = "usr/share/man/".data ++ "man".data := by decide
  have hre : (clean s).data = "usr/share/man/".data ++ ("man".data ++ t) := by
    rw [ht, h14, List.append_assoc]
  have htrim : goHasPfx (clean s) "usr/share/man/" = true :=
    (goHasPfx_iff _ _).mpr ⟨"man".data ++ t, hre⟩
  refine ⟨t, ?_, hnodd3⟩
  unfold goTrimPfx
  rw [if_pos htrim]
  show (clean s).data.drop ("usr/share/man/".data.length) = "man".data ++ t
  rw [hre, List.drop_left]

theorem safeRel_of_man_pfx (rel : String) (t : List Char)
    (hdat : rel.data = "man".data ++ t)
    (hnodd : dd ∉ splitSlash ("man".data ++ t)) :
    goIsAbs rel = false ∧ goHasPfx rel "man" = true ∧ hasDotDotSeg rel = false := by
  have hm : "man".data ++ t = 'm' :: 'a' :: 'n' :: t := by
    have h3 : "man".data = ['m', 'a', 'n'] := by decide
    rw [h3]; rfl
  refine ⟨?_, ?_, ?_⟩
  · show goHasPfx rel "/" = false
    unfold goHasPfx
    rw [hdat, hm]
    rfl
  · exact (goHasPfx_iff _ _).mpr ⟨t, by rw [hdat]⟩
  · unfold hasDotDotSeg
    rw [hdat]
    exact contains_false hnodd

theorem not_removed_of_guard (removeOldFiles : Bool) (cache updates : CacheMap)
    (p : String) (h : removalGuardSkips p = true) :
    p ∉ removedFiles removeOldFiles cache updates := by
  intro hmem
  have := (List.mem_filter.mp hmem).2
  rw [h] at this
  simp at this

/-- C2 (counterexample): the stale path `man1/..` contains a parent-directory
traversal segment, yet the deletion pass does remove it (the guard only
checks for the substring `../`), refuting the claim as stated. -/
theorem c2_counterexample :
    hasDotDotSeg "man1/.." = true ∧
    "man1/.." ∈ removedFiles true [("h", ["man1/.."])] [] := by
  constructor
  · decide
  · decide

/-- C2 (amended): a stale path that is absolute or contains the substring
`../` is never removed, for every cache and policy setting; in particular
`../../etc/passwd` and `/etc/passwd` are never deleted.  (A trailing `..`
segment without a following slash is not caught by the guard.) -/
theorem c2_amended (removeOldFiles : Bool) (cache updates : CacheMap) (p : String)
    (h : goIsAbs p = true ∨ goContains (toSlash p) "../" = true) :
    p ∉ removedFiles removeOldFiles cache updates ∧
    "../../etc/passwd" ∉ removedFiles removeOldFiles cache updates ∧
    "/etc/passwd" ∉ removedFiles removeOldFiles cache updates := by
  refine ⟨?_, ?_, ?_⟩
  · apply not_removed_of_guard
    unfold removalGuardSkips
    rcases h with h | h <;> simp [h]
  · exact not_removed_of_guard _ _ _ _ (by decide)
  · exact not_removed_of_guard _ _ _ _ (by decide)

/-- C2 (witness for the amended theorem). -/
theorem c2_amended_witness :
    "/etc/passwd" ∉ removedFiles true [("h", ["/etc/passwd"])] [] :=
  (c2_amended true [("h", ["/etc/passwd"])] [] "/etc/passwd" (Or.inl (by decide))).1

/-- C3: the stale set is exactly the set of paths referenced in the prior
cache minus those referenced in the final (post carry-forward) pending
cache; concretely, with prior cache `hashA ↦ [man1/a.1]` and a run that
records an empty list for `hashA` under the pruning policy, `man1/a.1` is
deleted and the persisted cache maps `hashA` to the empty list. -/
theorem c3_stale_set :
    (∀ (removeOldFiles : Bool) (cache updates : CacheMap) (p : String),
        p ∈ staleFiles cache (carryForward removeOldFiles cache updates) ↔
          p ∈ cachePathsOf cache ∧
          p ∉ cachePathsOf (carryForward removeOldFiles cache updates)) ∧
    removedFiles true [("hashA", ["man1/a.1"])] (recordChange [] "hashA" []) = ["man1/a.1"] ∧
    persistedCache true [("hashA", ["man1/a.1"])] (recordChange [] "hashA" []) =
      (1, [("hashA", [])]) := by
  refine ⟨?_, by decide, by decide⟩
  intro ro cache updates p
  unfold staleFiles
  rw [List.mem_filter]
  simp [List.elem_iff, List.contains]

/-- C4 (counterexample): merging a record keyed by the unparsable pkgver
`nameonly` does not fail — the parse error is discarded by `ReadRepoIndex`
(`_, p.Version, p.Revision, _ = parseVersionedName(...)`) — and the record
is added to the catalog with empty version and zero revision. -/
theorem c4_counterexample :
    parsePkgVer "nameonly" = .error ("nameonly", .noRevision) ∧
    (readRepoIndex etagStub aggStub newRepoData [("nameonly", nameonlyPkg)] "").index.length
      = 1 ∧
    ((readRepoIndex etagStub aggStub newRepoData [("nameonly", nameonlyPkg)] "").root.lookup
      "nameonly").map (fun r => (r.name, r.version, r.revision)) =
      some ("nameonly", "", 0) := by
  refine ⟨by decide, by decide, by decide⟩

/-- C4 (amended): for a decoded record that is new to the catalog and whose
combined version string cannot be parsed, the merge succeeds anyway: the
parse error is discarded, the record is appended with its name taken from
the map key and with the Go zero values `""`/`0` for version and revision. -/
theorem c4_amended (h1 : RecHash) (hA : AggHash) (k repo : String) (p : XPkg)
    (e : String × PkgVerErrKind) (hname : p.name = "")
    (hparse : parsePkgVer p.pkgver = .error e) :
    (readRepoIndex h1 hA newRepoData [(k, p)] repo).index.length = 1 ∧
    ((readRepoIndex h1 hA newRepoData [(k, p)] repo).root.lookup k).map
      (fun r => (r.name, r.version, r.revision)) = some (k, "", 0) := by
  have hvr : parseVersionedNameVR p.pkgver = ("", 0) := by
    unfold parseVersionedNameVR
    rw [hparse]
  unfold readRepoIndex
  simp only [List.foldl_cons, List.foldl_nil]
  unfold mergeStep
  simp only [newRepoData, List.lookup_nil, assocSet, List.lookup_nil, Option.isSome_none,
    Bool.false_eq_true, if_neg (by simp : ¬(none : Option XPkg).isSome = true)]
  unfold processRecord
  rw [hname]
  simp only [if_pos rfl, hvr]
  simp [sortPkgs, insPkg, reindexFrom, List.lookup]

/-- C4 (witness for the amended theorem). -/
theorem c4_amended_witness :
    (readRepoIndex etagStub aggStub newRepoData [("nameonly", nameonlyPkg)] "x").index.length
      = 1 ∧
    ((readRepoIndex etagStub aggStub newRepoData [("nameonly", nameonlyPkg)] "x").root.lookup
      "nameonly").map (fun r => (r.name, r.version, r.revision)) = some ("nameonly", "", 0) :=
  c4_amended etagStub aggStub "nameonly" "x" nameonlyPkg ("nameonly", .noRevision) rfl
    (by decide)

/-! ### The aggregate-fingerprint idempotence development (C9) -/

theorem set_of_getElem? {α : Type} (l : List α) (j : Nat) (a : α)
    (h : l[j]? = some a) : l.set j a = l := by
  induction l generalizing j with
  | nil => simp at h
  | cons x xs ih =>
    cases j with
    | zero => simp at h; simp [List.set, h]
    | succ n =>
      simp only [List.getElem?_cons_succ] at h
      simp [List.set, ih n h]

theorem assocSet_of_lookup_none {α : Type} (l : List (String × α)) (k : String) (v : α)
    (h : l.lookup k = none) : assocSet l k v = l ++ [(k, v)] := by
  unfold assocSet
  rw [h]
  simp

theorem lookup_map_overwrite {α : Type} (l : List (String × α)) (k k' : String) (v : α)
    (h : k' ≠ k) :
    (l.map (fun kv => if kv.1 = k then (k, v) else kv)).lookup k' = l.lookup k' := by
  induction l with
  | nil => simp
  | cons kv rest ih =>
    by_cases hk : kv.1 = k
    · simp only [List.map_cons, if_pos hk]
      rw [List.lookup_cons, List.lookup_cons]
      have h1 : (k' == k) = false := by simp [h]
      have h2 : (k' == kv.1) = false := by simp [hk, h]
      rw [h1, h2]
      exact ih
    · simp only [List.map_cons, if_neg hk]
      rw [List.lookup_cons, List.lookup_cons]
      cases hkk : (k' == kv.1)
      · exact ih
      · rfl

theorem assocSet_lookup_ne {α : Type} (l : List (String × α)) (k k' : String) (v : α)
    (h : k' ≠ k) : (assocSet l k v).lookup k' = l.lookup k' := by
  unfold assocSet
  by_cases hs : (l.lookup k).isSome
  · rw [if_pos hs]
    exact lookup_map_overwrite l k k' v h
  · rw [if_neg hs, List.lookup_append]
    have hfalse : (k' == k) = false := by simp [h]
    have hone : List.lookup k' [(k, v)] = none := by
      rw [List.lookup_cons, hfalse]
      rfl
    rw [hone]
    cases l.lookup k' <;> simp

theorem processRecord_name (h1 : RecHash) (repo k : String) (p0 : XPkg)
    (h : p0.name = "") : (processRecord h1 repo k p0).name = k := by
  unfold processRecord
  rw [if_pos h]

theorem foldl_mergeStep_fresh (h1 : RecHash) (repo : String)
    (input : List (String × XPkg)) :
    ∀ (root : List (String × XPkg)) (index : List XPkg),
      (∀ kp ∈ input, root.lookup kp.1 = none) →
      (input.map Prod.fst).Nodup →
      input.foldl (mergeStep h1 repo) (root, index) =
        (root ++ input.map (fun kp => (kp.1, processRecord h1 repo kp.1 kp.2)),
         index ++ input.map (fun kp => processRecord h1 repo kp.1 kp.2)) := by
  induction input with
  | nil => intro root index _ _; simp
  | cons kp rest ih =>
    intro root index hfresh hnod
    obtain ⟨k, p⟩ := kp
    have hk : root.lookup k = none := hfresh (k, p) (List.mem_cons_self _ _)
    have hstep : mergeStep h1 repo (root, index) (k, p) =
        (root ++ [(k, processRecord h1 repo k p)],
         index ++ [processRecord h1 repo k p]) := by
      have h2 : mergeStep h1 repo (root, index) (k, p) =
          (assocSet root k (processRecord h1 repo k p),
           index ++ [processRecord h1 repo k p]) := by
        unfold mergeStep
        rw [hk]
      rw [h2, assocSet_of_lookup_none _ _ _ hk]
    simp only [List.foldl_cons, hstep]
    have hnodc : (k :: rest.map Prod.fst).Nodup := by simpa using hnod
    have hnod' : (rest.map Prod.fst).Nodup := (List.nodup_cons.mp hnodc).2
    have hknot : k ∉ rest.map Prod.fst := (List.nodup_cons.mp hnodc).1
    have hfresh' : ∀ kp' ∈ rest,
        (root ++ [(k, processRecord h1 repo k p)]).lookup kp'.1 = none := by
      intro kp' hmem
      rw [List.lookup_append]
      rw [hfresh kp' (List.mem_cons_of_mem _ hmem)]
      have hne : kp'.1 ≠ k := by
        intro he
        exact hknot (he ▸ List.mem_map_of_mem Prod.fst hmem)
      have hfalse : (kp'.1 == k) = false := by simp [hne]
      rw [List.lookup_cons, hfalse]
      rfl
    rw [ih _ _ hfresh' hnod']
    simp [List.append_assoc]

theorem insPkg_perm (p : XPkg) (l : List XPkg) : (insPkg p l).Perm (p :: l) := by
  induction l with
  | nil => exact List.Perm.refl _
  | cons q qs ih =>
    unfold insPkg
    by_cases h : p.name ≤ q.name
    · rw [if_pos h]
    · rw [if_neg h]
      exact (ih.cons q).trans (List.Perm.swap p q qs)

theorem sortPkgs_perm (l : List XPkg) : (sortPkgs l).Perm l := by
  induction l with
  | nil => exact List.Perm.refl _
  | cons p ps ih =>
    exact (insPkg_perm p (sortPkgs ps)).trans (ih.cons p)

theorem insPkg_pairwise (p : XPkg) (l : List XPkg)
    (h : l.Pairwise (fun a b => a.name ≤ b.name)) :
    (insPkg p l).Pairwise (fun a b => a.name ≤ b.name) := by
  induction l with
  | nil => simp [insPkg]
  | cons q qs ih =>
    obtain ⟨hq, hqs⟩ := List.pairwise_cons.mp h
    unfold insPkg
    by_cases hle : p.name ≤ q.name
    · rw [if_pos hle]
      refine List.pairwise_cons.mpr ⟨?_, h⟩
      intro x hx
      rcases List.mem_cons.mp hx with rfl | hx'
      · exact hle
      · exact le_trans hle (hq x hx')
    · rw [if_neg hle]
      refine List.pairwise_cons.mpr ⟨?_, ih hqs⟩
      intro x hx
      have hx2 : x ∈ p :: qs := (insPkg_perm p qs).mem_iff.mp hx
      rcases List.mem_cons.mp hx2 with rfl | hx'
      · exact le_of_not_le hle
      · exact hq x hx'

theorem sortPkgs_pairwise (l : List XPkg) :
    (sortPkgs l).Pairwise (fun a b => a.name ≤ b.name) := by
  induction l with
  | nil => simp [sortPkgs]
  | cons p ps ih => exact insPkg_pairwise p (sortPkgs ps) ih

theorem sortPkgs_eq_self (l : List XPkg)
    (h : l.Pairwise (fun a b => a.name ≤ b.name)) : sortPkgs l = l := by
  induction l with
  | nil => rfl
  | cons p ps ih =>
    obtain ⟨hp, hps⟩ := List.pairwise_cons.mp h
    show insPkg p (sortPkgs ps) = p :: ps
    rw [ih hps]
    cases ps with
    | nil => rfl
    | cons q qs =>
      unfold insPkg
      rw [if_pos (hp q (List.mem_cons_self q qs))]

theorem reindexFrom_map_pkgProj (i : Nat) (l : List XPkg) :
    (reindexFrom i l).map pkgProj = l.map pkgProj := by
  induction l generalizing i with
  | nil => rfl
  | cons p ps ih => simp [reindexFrom, pkgProj, ih]

theorem reindexFrom_map_name (i : Nat) (l : List XPkg) :
    (reindexFrom i l).map (fun p => p.name) = l.map (fun p => p.name) := by
  induction l generalizing i with
  | nil => rfl
  | cons p ps ih => simp [reindexFrom, ih]

theorem reindexFrom_map_pairView (i : Nat) (l : List XPkg) :
    (reindexFrom i l).map pairView = l.map pairView := by
  induction l generalizing i with
  | nil => rfl
  | cons p ps ih => simp [reindexFrom, pairView, ih]

theorem length_reindexFrom (i : Nat) (l : List XPkg) :
    (reindexFrom i l).length = l.length := by
  induction l generalizing i with
  | nil => rfl
  | cons p ps ih => simp [reindexFrom, ih]

theorem getElem?_reindexFrom (i : Nat) (l : List XPkg) (j : Nat) :
    (reindexFrom i l)[j]? = l[j]?.map (fun p => { p with idx := i + j }) := by
  induction l generalizing i j with
  | nil => simp [reindexFrom]
  | cons p ps ih =>
    cases j with
    | zero => simp [reindexFrom]
    | succ n =>
      have harith : i + 1 + n = i + (n + 1) := by omega
      simp only [reindexFrom, List.getElem?_cons_succ, ih (i + 1) n, harith]

theorem map_pkgProj_set (l : List XPkg) (j : Nat) (p r : XPkg)
    (hj : l[j]? = some r) (hp : pkgProj p = pkgProj r) :
    (l.set j p).map pkgProj = l.map pkgProj := by
  rw [List.map_set, hp]
  apply set_of_getElem?
  rw [List.getElem?_map, hj]
  rfl

theorem lookup_map_self (l : List XPkg) (k : String) (q : XPkg)
    (hnod : (l.map (fun p => p.name)).Nodup) (hq : q ∈ l) (hname : q.name = k) :
    (l.map (fun p => (p.name, p))).lookup k = some q := by
  induction l with
  | nil => simp at hq
  | cons h t ih =>
    have hnodc : (h.name :: t.map (fun p => p.name)).Nodup := by simpa using hnod
    rw [List.map_cons, List.lookup_cons]
    by_cases hk : k = h.name
    · have hbeq : (k == h.name) = true := by simp [hk]
      rw [hbeq]
      rcases List.mem_cons.mp hq with rfl | hqt
      · rfl
      · exfalso
        have : h.name ∈ t.map (fun p => p.name) := by
          rw [← hk, ← hname]
          exact List.mem_map_of_mem (fun p => p.name) hqt
        exact (List.nodup_cons.mp hnodc).1 this
    · have hbeq : (k == h.name) = false := by simp [hk]
      rw [hbeq]
      rcases List.mem_cons.mp hq with rfl | hqt
      · exact absurd hname.symm hk
      · exact ih (List.nodup_cons.mp hnodc).2 hqt

theorem foldl_mergeStep_overwrite (h1 : RecHash) (repo : String)
    (input : List (String × XPkg)) :
    ∀ (root : List (String × XPkg)) (index : List XPkg),
      (input.map Prod.fst).Nodup →
      (∀ kp ∈ input, ∃ r, root.lookup kp.1 = some r ∧ index[r.idx]? = some r ∧
          pkgProj r = pkgProj (processRecord h1 repo kp.1 kp.2) ∧ r.name = kp.1) →
      ((input.foldl (mergeStep h1 repo) (root, index)).2).map pkgProj =
        index.map pkgProj := by
  induction input with
  | nil => intro root index _ _; rfl
  | cons kp rest ih =>
    intro root index hnod hinv
    obtain ⟨k, p⟩ := kp
    obtain ⟨r, hlook, hget, hproj, hrname⟩ := hinv (k, p) (List.mem_cons_self _ _)
    have hnodc : (k :: rest.map Prod.fst).Nodup := by simpa using hnod
    have hstep : mergeStep h1 repo (root, index) (k, p) =
        (assocSet root k (processRecord h1 repo k p),
         index.set r.idx (processRecord h1 repo k p)) := by
      unfold mergeStep
      rw [hlook]
    have hsetproj :
        (index.set r.idx (processRecord h1 repo k p)).map pkgProj = index.map pkgProj :=
      map_pkgProj_set index r.idx _ r hget hproj.symm
    have hinv' : ∀ kp' ∈ rest, ∃ r',
        (assocSet root k (processRecord h1 repo k p)).lookup kp'.1 = some r' ∧
        (index.set r.idx (processRecord h1 repo k p))[r'.idx]? = some r' ∧
        pkgProj r' = pkgProj (processRecord h1 repo kp'.1 kp'.2) ∧ r'.name = kp'.1 := by
      intro kp' hmem
      obtain ⟨r', hlook', hget', hproj', hrname'⟩ := hinv kp' (List.mem_cons_of_mem _ hmem)
      have hne : kp'.1 ≠ k := by
        intro he
        exact (List.nodup_cons.mp hnodc).1 (he ▸ List.mem_map_of_mem Prod.fst hmem)
      refine ⟨r', ?_, ?_, hproj', hrname'⟩
      · rw [assocSet_lookup_ne root k kp'.1 _ hne, hlook']
      · have hidxne : r.idx ≠ r'.idx := by
          intro he
          have hsome : some r = some r' := by rw [← hget, ← hget', he]
          have hr : r = r' := by injection hsome
          apply hne
          rw [← hrname', ← hr, hrname]
        rw [List.getElem?_set_ne hidxne, hget']
    have hrec := ih (assocSet root k (processRecord h1 repo k p))
      (index.set r.idx (processRecord h1 repo k p)) (List.nodup_cons.mp hnodc).2 hinv'
    simp only [List.foldl_cons, hstep]
    rw [hrec, hsetproj]

/-- C9: merging the same decoded index content (distinct keys, freshly
decoded records with empty names, arbitrary map-iteration order) into the
catalog twice yields the same aggregate fingerprint both times: the second
merge overwrites each record in place with identical fields, the re-sort
and reindex leave the sequence unchanged, and the aggregate hash input
(record count plus each record's version string and fingerprint) is
identical. -/
theorem c9_etag_idempotent (h1 : RecHash) (hA : AggHash)
    (input : List (String × XPkg)) (repo : String)
    (hkeys : (input.map Prod.fst).Nodup)
    (hname : ∀ kp ∈ input, kp.2.name = "") :
    (readRepoIndex h1 hA (readRepoIndex h1 hA newRepoData input repo) input repo).etag =
      (readRepoIndex h1 hA newRepoData input repo).etag := by
  set rp := if repo = "" then defaultRepository else repo with hrp
  set Q := input.map (fun kp => processRecord h1 rp kp.1 kp.2) with hQ
  set s1 := readRepoIndex h1 hA newRepoData input repo with hs1
  have hfold1 : input.foldl (mergeStep h1 rp) (newRepoData.root, newRepoData.index) =
      (input.map (fun kp => (kp.1, processRecord h1 rp kp.1 kp.2)), Q) := by
    have h := foldl_mergeStep_fresh h1 rp input newRepoData.root newRepoData.index
      (fun kp _ => rfl) hkeys
    rw [h, hQ]
    rfl
  have hidx1 : s1.index = reindexFrom 0 (sortPkgs Q) := by
    rw [hs1]
    show reindexFrom 0 (sortPkgs
      (input.foldl (mergeStep h1 rp) (newRepoData.root, newRepoData.index)).2) = _
    rw [hfold1]
  have hroot1 : s1.root = s1.index.map (fun p => (p.name, p)) := by
    rw [hs1]
    rfl
  have hetag1 : s1.etag = hA (aggView s1.index) := by
    rw [hs1]
    rfl
  have hQnames : Q.map (fun p => p.name) = input.map Prod.fst := by
    rw [hQ, List.map_map]
    apply List.map_congr_left
    intro kp hkp
    exact processRecord_name h1 rp kp.1 kp.2 (hname kp hkp)
  have hnames1 : s1.index.map (fun p => p.name) = (sortPkgs Q).map (fun p => p.name) := by
    rw [hidx1, reindexFrom_map_name]
  have hnodnames : (s1.index.map (fun p => p.name)).Nodup := by
    rw [hnames1]
    have hperm : ((sortPkgs Q).map (fun p => p.name)).Perm (Q.map (fun p => p.name)) :=
      (sortPkgs_perm Q).map _
    rw [hperm.nodup_iff, hQnames]
    exact hkeys
  have hsorted1 : s1.index.Pairwise (fun a b => a.name ≤ b.name) := by
    have hp2 : ((sortPkgs Q).map (fun p => p.name)).Pairwise (· ≤ ·) :=
      (List.pairwise_map).mpr (sortPkgs_pairwise Q)
    have hp3 : (s1.index.map (fun p => p.name)).Pairwise (· ≤ ·) := by
      rw [hnames1]; exact hp2
    exact (List.pairwise_map).mp hp3
  have hinv : ∀ kp ∈ input, ∃ r, s1.root.lookup kp.1 = some r ∧
      s1.index[r.idx]? = some r ∧
      pkgProj r = pkgProj (processRecord h1 rp kp.1 kp.2) ∧ r.name = kp.1 := by
    intro kp hkp
    have hq' : processRecord h1 rp kp.1 kp.2 ∈ Q := by
      rw [hQ]
      exact List.mem_map_of_mem _ hkp
    have hqS : processRecord h1 rp kp.1 kp.2 ∈ sortPkgs Q :=
      (sortPkgs_perm Q).mem_iff.mpr hq'
    obtain ⟨j, hj⟩ := List.mem_iff_getElem?.mp hqS
    have hIj : s1.index[j]? = some { processRecord h1 rp kp.1 kp.2 with idx := j } := by
      rw [hidx1, getElem?_reindexFrom, hj]
      simp
    refine ⟨{ processRecord h1 rp kp.1 kp.2 with idx := j }, ?_, ?_, rfl, ?_⟩
    · rw [hroot1]
      exact lookup_map_self s1.index kp.1 _ hnodnames
        (List.mem_iff_getElem?.mpr ⟨j, hIj⟩)
        (processRecord_name h1 rp kp.1 kp.2 (hname kp hkp))
    · exact hIj
    · exact processRecord_name h1 rp kp.1 kp.2 (hname kp hkp)
  set I2 := (input.foldl (mergeStep h1 rp) (s1.root, s1.index)).2 with hI2
  have hproj2 : I2.map pkgProj = s1.index.map pkgProj := by
    rw [hI2]
    exact foldl_mergeStep_overwrite h1 rp input s1.root s1.index hkeys hinv
  have hnames2 : I2.map (fun p => p.name) = s1.index.map (fun p => p.name) := by
    have h := congrArg (List.map (fun t : String × String × String => t.1)) hproj2
    rw [List.map_map, List.map_map] at h
    exact h
  have hsorted2 : I2.Pairwise (fun a b => a.name ≤ b.name) := by
    have hp3 : (I2.map (fun p => p.name)).Pairwise (· ≤ ·) := by
      rw [hnames2]
      exact (List.pairwise_map).mpr hsorted1
    exact (List.pairwise_map).mp hp3
  have hsorteq : sortPkgs I2 = I2 := sortPkgs_eq_self I2 hsorted2
  have hetag2 : (readRepoIndex h1 hA s1 input repo).etag =
      hA (aggView (reindexFrom 0 (sortPkgs I2))) := by
    show hA (aggView (reindexFrom 0 (sortPkgs
      (input.foldl (mergeStep h1 rp) (s1.root, s1.index)).2))) = _
    rw [← hI2]
  have hlen : (reindexFrom 0 I2).length = s1.index.length := by
    rw [length_reindexFrom]
    have h := congrArg List.length hproj2
    simpa using h
  have hpairs : (reindexFrom 0 I2).map pairView = s1.index.map pairView := by
    rw [reindexFrom_map_pairView]
    have h := congrArg (List.map (fun t : String × String × String => t.2)) hproj2
    rw [List.map_map, List.map_map] at h
    exact h
  rw [hetag2, hsorteq, hetag1]
  unfold aggView
  rw [hlen, hpairs]

/-- C9 (witness): a concrete single-record run. -/
theorem c9_etag_idempotent_witness :
    (readRepoIndex etagStub aggStub
      (readRepoIndex etagStub aggStub newRepoData [("nameonly", nameonlyPkg)] "x")
      [("nameonly", nameonlyPkg)] "x").etag =
    (readRepoIndex etagStub aggStub newRepoData [("nameonly", nameonlyPkg)] "x").etag :=
  c9_etag_idempotent etagStub aggStub [("nameonly", nameonlyPkg)] "x" (by decide)
    (by
      intro kp hkp
      have hkp' : kp = ("nameonly", nameonlyPkg) := by simpa using hkp
      rw [hkp']
      rfl)

theorem singleFilter_eq_filter (ps : List XPkg) (fn : XPkg → Bool) :
    singleFilter ps fn = ps.filter fn := by
  have hgen : ∀ (l : List XPkg) (acc : List XPkg),
      l.foldl (fun acc p => if fn p then acc ++ [p] else acc) acc = acc ++ l.filter fn := by
    intro l
    induction l with
    | nil => intro acc; simp
    | cons p rest ih =>
      intro acc
      simp only [List.foldl_cons]
      by_cases hp : fn p
      · rw [if_pos hp, ih, List.filter_cons_of_pos hp]
        simp
      · rw [if_neg hp, ih, List.filter_cons_of_neg (by simp [hp])]
  simpa using hgen ps []

theorem matchIdxs_append (fn : XPkg → Bool) (a b : List XPkg) :
    ∀ s, matchIdxs fn s (a ++ b) = matchIdxs fn s a ++ matchIdxs fn (s + a.length) b := by
  induction a with
  | nil => intro s; simp [matchIdxs]
  | cons p rest ih =>
    intro s
    show (if fn p then [s] else []) ++ matchIdxs fn (s + 1) (rest ++ b) =
      ((if fn p then [s] else []) ++ matchIdxs fn (s + 1) rest) ++
        matchIdxs fn (s + (p :: rest).length) b
    rw [ih (s + 1), List.append_assoc]
    have h2 : s + 1 + rest.length = s + (p :: rest).length := by
      simp only [List.length_cons]
      omega
    rw [h2]

theorem chunks_matchIdxs_flatten (fn : XPkg → Bool) :
    ∀ (n : Nat) (ps : List XPkg), ps.length ≤ n → ∀ s,
      ((goChunksFrom s ps).map (fun c => matchIdxs fn c.1 c.2)).flatten = matchIdxs fn s ps := by
  intro n
  induction n with
  | zero =>
    intro ps hlen s
    have hnil : ps = [] := List.eq_nil_of_length_eq_zero (Nat.le_zero.mp hlen)
    subst hnil
    rw [goChunksFrom]
    simp [matchIdxs]
  | succ n ih =>
    intro ps hlen s
    by_cases h : ps = []
    · subst h
      rw [goChunksFrom]
      simp [matchIdxs]
    · rw [goChunksFrom, dif_neg h]
      simp only [List.map_cons, List.flatten_cons]
      have hlp : 0 < ps.length := List.length_pos.mpr h
      have hdrop : (ps.drop splitSize).length ≤ n := by
        simp only [List.length_drop, splitSize]
        simp only [splitSize] at *
        omega
      rw [ih (ps.drop splitSize) hdrop (s + splitSize)]
      by_cases hlen2 : ps.length ≤ splitSize
      · rw [List.take_of_length_le hlen2, List.drop_eq_nil_of_le hlen2]
        simp [matchIdxs]
      · have htd : ps.take splitSize ++ ps.drop splitSize = ps := List.take_append_drop _ _
        conv_rhs => rw [← htd]
        rw [matchIdxs_append]
        have hlt : (ps.take splitSize).length = splitSize := by
          rw [List.length_take]
          omega
        rw [hlt]

theorem matchIdxs_bounds (fn : XPkg → Bool) :
    ∀ (l : List XPkg) (s : Nat),
      (matchIdxs fn s l).Pairwise (· < ·) ∧ ∀ i ∈ matchIdxs fn s l, s ≤ i := by
  intro l
  induction l with
  | nil => intro s; simp [matchIdxs]
  | cons p rest ih =>
    intro s
    obtain ⟨ihp, ihb⟩ := ih (s + 1)
    constructor
    · show ((if fn p then [s] else []) ++ matchIdxs fn (s + 1) rest).Pairwise (· < ·)
      rw [List.pairwise_append]
      refine ⟨?_, ihp, ?_⟩
      · by_cases hp : fn p <;> simp [hp]
      · intro a ha b hb
        have hbge : s + 1 ≤ b := ihb b hb
        by_cases hp : fn p
        · rw [if_pos hp] at ha
          have : a = s := by simpa using ha
          omega
        · rw [if_neg hp] at ha
          simp at ha
    · intro i hi
      show s ≤ i
      rcases List.mem_append.mp hi with hi' | hi'
      · by_cases hp : fn p
        · rw [if_pos hp] at hi'
          have : i = s := by simpa using hi'
          omega
        · rw [if_neg hp] at hi'
          simp at hi'
      · have := ihb i hi'
        omega

theorem insNat_of_le (n : Nat) (l : List Nat) (h : ∀ m ∈ l, n ≤ m) :
    insNat n l = n :: l := by
  cases l with
  | nil => rfl
  | cons m ms =>
    unfold insNat
    rw [if_pos (h m (List.mem_cons_self m ms))]

theorem sortNats_eq_self (l : List Nat) (h : l.Pairwise (· ≤ ·)) : sortNats l = l := by
  induction l with
  | nil => rfl
  | cons n ns ih =>
    obtain ⟨hn, hns⟩ := List.pairwise_cons.mp h
    show insNat n (sortNats ns) = n :: ns
    rw [ih hns]
    exact insNat_of_le n ns hn

theorem matchIdxs_filterMap (fn : XPkg → Bool) :
    ∀ (suf pre : List XPkg),
      (matchIdxs fn pre.length suf).filterMap (fun i => (pre ++ suf)[i]?) =
        suf.filter fn := by
  intro suf
  induction suf with
  | nil => intro pre; simp [matchIdxs]
  | cons p rest ih =>
    intro pre
    show ((if fn p then [pre.length] else []) ++
        matchIdxs fn (pre.length + 1) rest).filterMap (fun i => (pre ++ p :: rest)[i]?) =
      (p :: rest).filter fn
    rw [List.filterMap_append]
    have hget : (pre ++ p :: rest)[pre.length]? = some p := by
      rw [List.getElem?_append_right (le_refl _)]
      simp
    have ihx := ih (pre ++ [p])
    have hlen : (pre ++ [p]).length = pre.length + 1 := by simp
    have happ : (pre ++ [p]) ++ rest = pre ++ p :: rest := by simp
    rw [hlen, happ] at ihx
    by_cases hf : fn p
    · rw [if_pos hf]
      simp only [List.filterMap_cons, List.filterMap_nil, hget]
      rw [ihx, List.filter_cons_of_pos hf]
      rfl
    · rw [if_neg hf]
      simp only [List.filterMap_nil, List.nil_append]
      rw [ihx, List.filter_cons_of_neg (by simp [hf])]

theorem splitFilter_eq_filter (ps : List XPkg) (fn : XPkg → Bool) :
    splitFilter ps fn = ps.filter fn := by
  unfold splitFilter
  rw [chunks_matchIdxs_flatten fn ps.length ps (le_refl _) 0]
  obtain ⟨hpair, -⟩ := matchIdxs_bounds fn ps 0
  unfold sparseAsc
  rw [sortNats_eq_self _ (hpair.imp le_of_lt),
    List.dedup_eq_self.mpr (hpair.imp ne_of_lt)]
  have := matchIdxs_filterMap fn ps []
  simpa using this

theorem goChunksFrom_join :
    ∀ (n : Nat) (ps : List XPkg), ps.length ≤ n → ∀ s,
      ((goChunksFrom s ps).map Prod.snd).flatten = ps := by
  intro n
  induction n with
  | zero =>
    intro ps hlen s
    have hnil : ps = [] := List.eq_nil_of_length_eq_zero (Nat.le_zero.mp hlen)
    subst hnil
    rw [goChunksFrom]
    simp
  | succ n ih =>
    intro ps hlen s
    by_cases h : ps = []
    · subst h
      rw [goChunksFrom]
      simp
    · rw [goChunksFrom, dif_neg h]
      have hlp : 0 < ps.length := List.length_pos.mpr h
      have hdrop : (ps.drop splitSize).length ≤ n := by
        simp only [List.length_drop, splitSize] at *
        omega
      simp only [List.map_cons, List.flatten_cons]
      rw [ih (ps.drop splitSize) hdrop (s + splitSize)]
      exact List.take_append_drop _ _

theorem goChunksFrom_shape :
    ∀ (n : Nat) (ps : List XPkg), ps.length ≤ n → ∀ s c, c ∈ goChunksFrom s ps →
      (∃ k, c.1 = s + splitSize * k) ∧ c.2 ≠ [] ∧ c.2.length ≤ splitSize ∧
      c.2 = (ps.drop (c.1 - s)).take splitSize := by
  intro n
  induction n with
  | zero =>
    intro ps hlen s c hc
    have hnil : ps = [] := List.eq_nil_of_length_eq_zero (Nat.le_zero.mp hlen)
    subst hnil
    rw [goChunksFrom] at hc
    simp at hc
  | succ n ih =>
    intro ps hlen s c hc
    by_cases h : ps = []
    · subst h
      rw [goChunksFrom] at hc
      simp at hc
    · rw [goChunksFrom, dif_neg h] at hc
      have hlp : 0 < ps.length := List.length_pos.mpr h
      rcases List.mem_cons.mp hc with rfl | hc'
      · refine ⟨⟨0, by omega⟩, ?_, List.length_take_le _ _, by simp⟩
        intro ht
        rcases List.take_eq_nil_iff.mp ht with h0 | h0
        · exact absurd h0 (by decide)
        · exact h h0
      · have hdrop : (ps.drop splitSize).length ≤ n := by
          simp only [List.length_drop, splitSize] at *
          omega
        obtain ⟨⟨k, hk⟩, hne, hle, heq⟩ := ih (ps.drop splitSize) hdrop (s + splitSize) c hc'
        refine ⟨⟨k + 1, by rw [hk]; ring⟩, hne, hle, ?_⟩
        rw [heq, List.drop_drop]
        have harith : splitSize + (c.1 - (s + splitSize)) = c.1 - s := by omega
        rw [harith]

/-- C6: the concurrent split filter, the sequential filter, and `Filter`
itself all return exactly the matching subsequence in original order
(`List.filter`), for every catalog and predicate — hence for all sizes
straddling the threshold and for empty-match and all-match predicates. -/
theorem c6_filter_equiv (ps : List XPkg) (fn : XPkg → Bool) :
    filterPkgs ps fn = ps.filter fn ∧
    splitFilter ps fn = ps.filter fn ∧
    singleFilter ps fn = ps.filter fn := by
  refine ⟨?_, splitFilter_eq_filter ps fn, singleFilter_eq_filter ps fn⟩
  unfold filterPkgs
  by_cases h : ps.length ≤ minSplitFilter
  · rw [if_pos h]
    exact singleFilter_eq_filter ps fn
  · rw [if_neg h]
    exact splitFilter_eq_filter ps fn

/-- C5 (counterexample): a catalog of exactly 3000 records is filtered on
the sequential path — the dispatch is `len(ps) <= minSplitFilter`, so the
concurrent split path requires strictly more than 3000 records, refuting
the claim that 3000 or more records are partitioned into chunks. -/
theorem c5_counterexample :
    (List.replicate 3000 nameonlyPkg).length = 3000 ∧
    filterTakesSplitPath (List.replicate 3000 nameonlyPkg).length = false ∧
    (∀ fn, filterPkgs (List.replicate 3000 nameonlyPkg) fn =
      singleFilter (List.replicate 3000 nameonlyPkg) fn) := by
  have hlen : (List.replicate 3000 nameonlyPkg).length = 3000 :=
    List.length_replicate 3000 nameonlyPkg
  refine ⟨hlen, ?_, ?_⟩
  · rw [hlen]
    decide
  · intro fn
    unfold filterPkgs
    rw [if_pos (by rw [hlen]; decide)]

/-- C5 (amended): catalogs of at most 3000 records are evaluated
sequentially and catalogs of more than 3000 records take the concurrent
split path, which partitions the catalog into chunks of at most 2000
records (each nonempty, starting at a multiple of 2000, and equal to the
corresponding slice of the catalog) whose concatenation is the whole
catalog; per-chunk tasks record matches as global indices that are
unioned and emitted in ascending order. -/
theorem c5_amended (ps : List XPkg) (fn : XPkg → Bool) :
    (ps.length ≤ minSplitFilter → filterPkgs ps fn = singleFilter ps fn) ∧
    (minSplitFilter < ps.length → filterPkgs ps fn = splitFilter ps fn) ∧
    ((goChunksFrom 0 ps).map Prod.snd).flatten = ps ∧
    (∀ c ∈ goChunksFrom 0 ps, (∃ k, c.1 = splitSize * k) ∧ c.2 ≠ [] ∧
      c.2.length ≤ splitSize ∧ c.2 = (ps.drop c.1).take splitSize) := by
  refine ⟨?_, ?_, goChunksFrom_join ps.length ps (le_refl _) 0, ?_⟩
  · intro h
    unfold filterPkgs
    rw [if_pos h]
  · intro h
    unfold filterPkgs
    rw [if_neg (not_le.mpr h)]
  · intro c hc
    obtain ⟨⟨k, hk⟩, hne, hle, heq⟩ :=
      goChunksFrom_shape ps.length ps (le_refl _) 0 c hc
    refine ⟨⟨k, by omega⟩, hne, hle, ?_⟩
    rw [heq]
    have h0 : c.1 - 0 = c.1 := by omega
    rw [h0]

/-- C5 (witness for the amended theorem). -/
theorem c5_amended_witness :
    filterPkgs [nameonlyPkg] (fun _ => true) = singleFilter [nameonlyPkg] (fun _ => true) :=
  (c5_amended [nameonlyPkg] (fun _ => true)).1 (by decide)

theorem lookup_map_overwrite_self {α : Type} (l : List (String × α)) (k : String) (v : α)
    (hs : (l.lookup k).isSome = true) :
    (l.map (fun kv => if kv.1 = k then (k, v) else kv)).lookup k = some v := by
  induction l with
  | nil => simp at hs
  | cons kv rest ih =>
    by_cases hk : kv.1 = k
    · simp only [List.map_cons, if_pos hk]
      rw [List.lookup_cons]
      simp
    · simp only [List.map_cons, if_neg hk]
      rw [List.lookup_cons]
      have hf : (k == kv.1) = false := by
        simp
        exact fun he => hk he.symm
      rw [hf]
      apply ih
      rw [List.lookup_cons, hf] at hs
      exact hs

theorem lookup_assocSet_self {α : Type} (l : List (String × α)) (k : String) (v : α) :
    (assocSet l k v).lookup k = some v := by
  unfold assocSet
  by_cases hs : (l.lookup k).isSome
  · rw [if_pos hs]
    exact lookup_map_overwrite_self l k v hs
  · rw [if_neg hs, List.lookup_append]
    have hnone : l.lookup k = none := by
      cases h : l.lookup k
      · rfl
      · rw [h] at hs
        simp at hs
    rw [hnone]
    rw [List.lookup_cons]
    simp

theorem lookup_recordChange_self (updates : CacheMap) (pkg : String) (paths : List String) :
    ((recordChange updates pkg paths).lookup pkg).isSome = true := by
  unfold recordChange
  by_cases hc : paths = [] ∧ ((updates.lookup pkg).getD []) = []
  · rw [if_pos hc, lookup_assocSet_self]
    rfl
  · rw [if_neg hc, lookup_assocSet_self]
    rfl

theorem recordChange_fresh (updates : CacheMap) (pkg : String) (paths : List String)
    (h : updates.lookup pkg = none) :
    (recordChange updates pkg paths).lookup pkg = some paths := by
  unfold recordChange
  rw [h]
  by_cases hp : paths = []
  · rw [if_pos ⟨hp, rfl⟩, lookup_assocSet_self, hp]
  · rw [if_neg (fun hand => hp hand.1), lookup_assocSet_self]
    rfl

/-- C1 (counterexample): on the missing-archive branch the worker records
nothing: for a non-debug package with an uncached hash and a missing
archive file, `processPackage` returns nil without touching the pending
cache, so no entry (not even an empty list) exists for the hash —
refuting "every path leaves exactly one entry". -/
theorem c1_counterexample :
    processPackage [] [] ⟨"foo", "h"⟩ none = Except.ok ([], []) ∧
    (([] : CacheMap).lookup "h") = none := by
  constructor
  · decide
  · rfl

/-- C1 (amended): the cache-hit branch records the prior entries and every
successful archive-processing run ends by recording (so the hash gets an
entry, an explicit empty list when nothing was dumped); the debug/32-bit
skip branch and the missing-archive branch return without recording,
leaving the pending cache unchanged. -/
theorem c1_record_per_branch (cache updates : CacheMap) (pkg : PkgRef)
    (archive : Option ArchiveM) :
    ((goHasSfx pkg.name "-dbg" || goHasSfx pkg.name "-32bit") = true →
      processPackage cache updates pkg archive = Except.ok (updates, [])) ∧
    ((goHasSfx pkg.name "-dbg" || goHasSfx pkg.name "-32bit") = false →
      ∀ entries, cache.lookup pkg.filenameSHA256 = some entries →
        processPackage cache updates pkg archive =
          Except.ok (recordChange updates pkg.filenameSHA256 entries, [])) ∧
    ((goHasSfx pkg.name "-dbg" || goHasSfx pkg.name "-32bit") = false →
      cache.lookup pkg.filenameSHA256 = none → archive = none →
        processPackage cache updates pkg archive = Except.ok (updates, [])) ∧
    (∀ ar u' acts, (goHasSfx pkg.name "-dbg" || goHasSfx pkg.name "-32bit") = false →
      cache.lookup pkg.filenameSHA256 = none → archive = some ar →
      processPackage cache updates pkg archive = Except.ok (u', acts) →
        (u'.lookup pkg.filenameSHA256).isSome = true) := by
  refine ⟨?_, ?_, ?_, ?_⟩
  · intro hskip
    unfold processPackage
    rw [if_pos hskip]
  · intro hskip entries hhit
    unfold processPackage
    rw [if_neg (by simp [hskip]), hhit]
  · intro hskip hmiss harch
    unfold processPackage
    rw [if_neg (by simp [hskip]), hmiss, harch]
  · intro ar u' acts hskip hmiss harch hok
    subst harch
    obtain ⟨fmt, entries⟩ := ar
    unfold processPackage at hok
    cases fmt with
    | unsupported => simp [hskip, hmiss] at hok
    | xz =>
      cases hfm : findManifest entries with
      | none =>
        simp [hskip, hmiss, hfm] at hok
        obtain ⟨h1, -⟩ := hok
        subst h1
        exact lookup_recordChange_self updates pkg.filenameSHA256 []
      | some mrest =>
        obtain ⟨me, rest⟩ := mrest
        cases hpl : me.plistContent with
        | none => simp [hskip, hmiss, hfm, hpl] at hok
        | some files =>
          by_cases he : packageFilesEmpty files
          · simp [hskip, hmiss, hfm, hpl, he] at hok
            obtain ⟨h1, -⟩ := hok
            subst h1
            exact lookup_recordChange_self updates pkg.filenameSHA256 []
          · by_cases hm : hasManDir files
            · simp [hskip, hmiss, hfm, hpl, he, hm] at hok
              obtain ⟨h1, -⟩ := hok
              subst h1
              exact lookup_recordChange_self _ pkg.filenameSHA256 []
            · simp [hskip, hmiss, hfm, hpl, he, hm] at hok
              obtain ⟨h1, -⟩ := hok
              subst h1
              exact lookup_recordChange_self updates pkg.filenameSHA256 []
    | zstd =>
      cases hfm : findManifest entries with
      | none =>
        simp [hskip, hmiss, hfm] at hok
        obtain ⟨h1, -⟩ := hok
        subst h1
        exact lookup_recordChange_self updates pkg.filenameSHA256 []
      | some mrest =>
        obtain ⟨me, rest⟩ := mrest
        cases hpl : me.plistContent with
        | none => simp [hskip, hmiss, hfm, hpl] at hok
        | some files =>
          by_cases he : packageFilesEmpty files
          · simp [hskip, hmiss, hfm, hpl, he] at hok
            obtain ⟨h1, -⟩ := hok
            subst h1
            exact lookup_recordChange_self updates pkg.filenameSHA256 []
          · by_cases hm : hasManDir files
            · simp [hskip, hmiss, hfm, hpl, he, hm] at hok
              obtain ⟨h1, -⟩ := hok
              subst h1
              exact lookup_recordChange_self _ pkg.filenameSHA256 []
            · simp [hskip, hmiss, hfm, hpl, he, hm] at hok
              obtain ⟨h1, -⟩ := hok
              subst h1
              exact lookup_recordChange_self updates pkg.filenameSHA256 []

/-- C1 (witness for the amended theorem). -/
theorem c1_record_per_branch_witness :
    processPackage [] [] ⟨"foo-dbg", "h"⟩ none = Except.ok ([], []) :=
  (c1_record_per_branch [] [] ⟨"foo-dbg", "h"⟩ none).1 (by decide)

/-- C7 (counterexample): a package named `foo-dbg` whose content hash is a
prior-cache key hits the debug/32-bit skip branch before the cache-hit
check, so nothing is recorded — the prior file list is not reproduced,
refuting the claim for every package with a cached hash. -/
theorem c7_counterexample :
    ([("h", ["man1/x.1"])] : CacheMap).lookup "h" = some ["man1/x.1"] ∧
    processPackage [("h", ["man1/x.1"])] [] ⟨"foo-dbg", "h"⟩ none = Except.ok ([], []) ∧
    (([] : CacheMap).lookup "h") = none := by
  refine ⟨by decide, by decide, rfl⟩

/-- C7 (amended): for every package whose name does not carry the debug or
32-bit suffix and whose content hash is a prior-cache key, the worker's
result is the same for every archive value (no archive I/O), performs no
filesystem action, and records the prior cache's file list; when the hash
had not yet been recorded this run, the pending entry is exactly the prior
list, verbatim. -/
theorem c7_cache_hit (cache updates : CacheMap) (pkg : PkgRef)
    (archive : Option ArchiveM) (entries : List String)
    (hskip : (goHasSfx pkg.name "-dbg" || goHasSfx pkg.name "-32bit") = false)
    (hhit : cache.lookup pkg.filenameSHA256 = some entries) :
    processPackage cache updates pkg archive =
      Except.ok (recordChange updates pkg.filenameSHA256 entries, []) ∧
    (∀ archive', processPackage cache updates pkg archive =
      processPackage cache updates pkg archive') ∧
    (updates.lookup pkg.filenameSHA256 = none →
      (recordChange updates pkg.filenameSHA256 entries).lookup pkg.filenameSHA256 =
        some entries) := by
  have key : ∀ a, processPackage cache updates pkg a =
      Except.ok (recordChange updates pkg.filenameSHA256 entries, []) := by
    intro a
    unfold processPackage
    rw [if_neg (by simp [hskip]), hhit]
  exact ⟨key archive, fun a' => (key archive).trans (key a').symm,
    recordChange_fresh updates pkg.filenameSHA256 entries⟩

/-- C7 (witness for the amended theorem). -/
theorem c7_cache_hit_witness :
    processPackage [("h", ["man1/x.1"])] [] ⟨"foo", "h"⟩ none =
      Except.ok (recordChange [] "h" ["man1/x.1"], []) :=
  (c7_cache_hit [("h", ["man1/x.1"])] [] ⟨"foo", "h"⟩ none ["man1/x.1"] (by decide)
    (by decide)).1

/-- C8 (counterexample): the entry `./usr/share/man/man1/rogue.1` is not in
the target set built from the manifest, yet the second pass extracts it
(creates `man1/rogue.1` and records it) — extraction is gated by the
cleaned-name prefix, not by target-set membership. -/
theorem c8_counterexample :
    targetSetOf c8mani = ["./usr/share/man/man1/a.1"] ∧
    processPackage [] [] ⟨"foo", "h"⟩ (some c8archive) =
      Except.ok ([("h", ["man1/rogue.1", "man1/a.1"])],
        [FsAction.mkdirAll "man1", FsAction.createFile "man1/rogue.1",
         FsAction.mkdirAll "man1", FsAction.createFile "man1/a.1"]) := by
  constructor
  · decide
  · decide

/-- C8 (amended): the second pass reads entries until the target set
empties or the stream ends, removing each read entry's name from the set;
it extracts exactly those entries read that are regular files or symlinks
whose cleaned name starts with `usr/share/man/man` — independently of
target-set membership — recording each extracted path and performing the
corresponding directory/file/symlink actions (a symlink replaces any
existing destination). -/
theorem c8_second_pass (dHash : String) (entries : List TarEntry) (mp : List String)
    (updates : CacheMap) (acts : List FsAction) :
    secondPass dHash entries mp updates acts =
      ((extractedRelPaths entries mp).foldl (fun u rel => recordChange u dHash [rel]) updates,
       acts ++ (processedUpTo entries mp).flatMap entryActions) := by
  induction entries generalizing mp updates acts with
  | nil =>
    cases mp with
    | nil => simp [secondPass, processedUpTo, extractedRelPaths]
    | cons m ms => simp [secondPass, processedUpTo, extractedRelPaths]
  | cons e rest ih =>
    cases mp with
    | nil => simp [secondPass, processedUpTo, extractedRelPaths]
    | cons m ms =>
      show secondPass dHash rest ((m :: ms).filter (fun n => n != e.name))
          (processPackageFile dHash e updates).1
          (acts ++ (processPackageFile dHash e updates).2) = _
      rw [ih]
      cases hd : dumpRelPathOfEntry e with
      | none =>
        simp [processPackageFile, hd, extractedRelPaths, processedUpTo, entryActions]
      | some relpath =>
        simp [processPackageFile, hd, extractedRelPaths, processedUpTo, entryActions,
          List.append_assoc]

/-- C10: every output path the extraction step records (the dump path of a
regular file or symlink destination) is safe: it is produced by cleaning
the archive entry name, requiring the cleaned name to start with
`usr/share/man/man` and stripping `usr/share/man/`, so it is not absolute,
begins with `man`, and contains no parent-directory traversal segment —
it can satisfy neither of the deletion guard's absolute/traversal
conditions, and extraction never writes outside the working tree. -/
theorem c10_extracted_paths_safe (e : TarEntry) (rel : String)
    (h : dumpRelPathOfEntry e = some rel) :
    goIsAbs rel = false ∧ goHasPfx rel "man" = true ∧ hasDotDotSeg rel = false := by
  unfold dumpRelPathOfEntry at h
  have hcore : ∀ (hp : goHasPfx (clean e.name) manPathPfxS = true),
      rel = goTrimPfx (clean e.name) manPathTrimPfxS →
      goIsAbs rel = false ∧ goHasPfx rel "man" = true ∧ hasDotDotSeg rel = false := by
    intro hp hrel
    obtain ⟨t, hdat, hnodd⟩ := clean_man_rel e.name hp
    subst hrel
    exact safeRel_of_man_pfx _ t hdat hnodd
  cases ht : e.typeflag with
  | reg =>
    rw [ht] at h
    by_cases hp : goHasPfx (clean e.name) manPathPfxS = true
    · rw [if_pos hp] at h
      exact hcore hp (Option.some.inj h).symm
    · rw [if_neg hp] at h
      simp at h
  | symlink =>
    rw [ht] at h
    by_cases hp : goHasPfx (clean e.name) manPathPfxS = true
    · rw [if_pos hp] at h
      exact hcore hp (Option.some.inj h).symm
    · rw [if_neg hp] at h
      simp at h
  | link => rw [ht] at h; simp at h
  | dir => rw [ht] at h; simp at h
  | other => rw [ht] at h; simp at h

/-- C10 (witness). -/
theorem c10_extracted_paths_safe_witness :
    goIsAbs "man1/foo.1" = false ∧ goHasPfx "man1/foo.1" "man" = true ∧
    hasDotDotSeg "man1/foo.1" = false :=
  c10_extracted_paths_safe ⟨"./usr/share/man/man1/foo.1", TypeFlag.reg, "", none⟩
    "man1/foo.1" (by decide)
